import Mathlib

/-!
Verification of the batch request engine of `s3-lambda` (littlstar/s3-lambda).

The development shallowly embeds the current implementation:
* `lib/S3.js` — the promise wrapper around the store: `keys` / `listRecursive`
  (pagination-aware key resolution) and `get` (fetch with encoding/transformer);
* `lib/Request.js` — the batch request object: `resolveSources` (reverse/limit/
  exclude modifiers) and the terminal operations `each`/`forEach`/`map`/
  `reduce`/`filter`, with their store side effects modelled as event traces.

JavaScript-specific behaviour that the claims depend on is modelled explicitly:
`x || y` falsiness coercions, `String.prototype.replace` replacing only the
first occurrence, a callback invoked with fewer arguments than its declaration
(the missing argument is `undefined`, modelled as `none`).
-/

/-! ## String helpers -/

/-- Substring test: `hay.indexOf(ned) > -1` in JavaScript, i.e. `ned` occurs
contiguously inside `hay` (char-list form). -/
def containsSub (hay ned : List Char) : Bool :=
  match hay with
  | [] => ned.isEmpty
  | _ :: t => ned.isPrefixOf hay || containsSub t ned

/-- Substring test on strings: `k.indexOf(ep) > -1`. -/
def strContains (k ep : String) : Bool :=
  containsSub k.toList ep.toList

/-- Replace the first occurrence of `pat` by `rep` (char-list form), as
JavaScript `String.prototype.replace` does with a string pattern. -/
def replFirst (pat rep : List Char) : List Char → List Char
  | [] => if pat.isEmpty then rep else []
  | c :: cs =>
    if pat.isPrefixOf (c :: cs) then rep ++ (c :: cs).drop pat.length
    else c :: replFirst pat rep cs

/-- JavaScript `s.replace(pat, rep)` with a string pattern: only the first
occurrence is replaced; `s` is returned unchanged when `pat` does not occur. -/
def jsReplace (s pat rep : String) : String :=
  ⟨replFirst pat.toList rep.toList s.toList⟩

/-! ## The paginated store and `S3.keys` / `S3.listRecursive` (lib/S3.js)

The store collaborator is modelled as a lexicographically sorted list of keys
together with a page size: `listObjects(bucket, prefix, marker)` returns the
first `pageSize` keys that carry the prefix and are strictly greater than the
marker, plus the `IsTruncated` flag. -/

/-- A bucket of the object store, as seen by key listing: all its keys (the
theorems assume them sorted, as the store guarantees) and the page size the
store imposes (1000 for S3). -/
structure PageStore where
  keys : List String
  pageSize : Nat

/-- Keys of the store matching a listing request: carrying the prefix and
strictly after the marker, in store order.  The comparisons are on the
character data of the keys: `String.isPrefixOf` and the lexicographic
`String` order are exactly these comparisons on `data`. -/
def matchingKeys (st : PageStore) (pfx marker : String) : List String :=
  st.keys.filter (fun k => pfx.data.isPrefixOf k.data && decide (marker.data < k.data))

/-- One page returned by `listObjects`: the contents and the truncated flag. -/
structure Page where
  contents : List String
  truncated : Bool

/-- The store's `listObjects(bucket, prefix, marker)`: one page of matching
keys and whether more remain. -/
def listObjectsM (st : PageStore) (pfx marker : String) : Page :=
  ⟨(matchingKeys st pfx marker).take st.pageSize,
   decide (st.pageSize < (matchingKeys st pfx marker).length)⟩

/-- Embedding of `S3.listRecursive` (lib/S3.js): accumulate pages, scanning
each page for the first key containing `ep` (when `ep` is nonempty) and, when a
match is found, truncating the page there and stopping even if the store says
more pages remain; otherwise recurse with the last key of the page as the new
marker while `IsTruncated` holds.  The `none` result models the code path
`if (keys.Contents.length === 0) done()` — the callback is invoked with no
arguments, so the accumulated keys are `undefined`. -/
def listRecursiveM (st : PageStore) (pfx ep marker : String) (acc : List String) :
    Option (List String) :=
  match hpage : (listObjectsM st pfx marker).contents with
  | [] => none
  | c :: cs =>
    let keyValues := c :: cs
    let stopped := decide (0 < ep.length) && keyValues.any (fun k => strContains k ep)
    let kept :=
      if 0 < ep.length then keyValues.takeWhile (fun k => !(strContains k ep))
      else keyValues
    if (listObjectsM st pfx marker).truncated && !stopped then
      listRecursiveM st pfx ep (keyValues.getLast (List.cons_ne_nil c cs)) (acc ++ kept)
    else
      some (acc ++ kept)
termination_by (st.keys.filter (fun k => decide (marker.data < k.data))).length
decreasing_by
  have hmem : (c :: cs).getLast (List.cons_ne_nil c cs) ∈ c :: cs :=
    List.getLast_mem _
  have htake : (matchingKeys st pfx marker).take st.pageSize = c :: cs := hpage
  have hmem1 : (c :: cs).getLast (List.cons_ne_nil c cs) ∈
      (matchingKeys st pfx marker).take st.pageSize := by
    rw [htake]; exact hmem
  have hmem2 : (c :: cs).getLast (List.cons_ne_nil c cs) ∈ matchingKeys st pfx marker :=
    List.mem_of_mem_take hmem1
  have hfil := List.mem_filter.mp hmem2
  have hlt : marker.data < ((c :: cs).getLast (List.cons_ne_nil c cs)).data := by
    have h2 := hfil.2
    simp only [Bool.and_eq_true, decide_eq_true_eq] at h2
    exact h2.2
  have hsub : List.Sublist
      (st.keys.filter (fun k =>
        decide (((c :: cs).getLast (List.cons_ne_nil c cs)).data < k.data)))
      (st.keys.filter (fun k => decide (marker.data < k.data))) :=
    List.monotone_filter_right st.keys (fun a ha =>
      decide_eq_true (lt_trans hlt (of_decide_eq_true ha)))
  refine Nat.lt_of_le_of_ne hsub.length_le (fun heq2 => ?_)
  have heq3 := hsub.eq_of_length heq2
  have hmm : (c :: cs).getLast (List.cons_ne_nil c cs) ∈
      st.keys.filter (fun k => decide (marker.data < k.data)) :=
    List.mem_filter.mpr ⟨hfil.1, decide_eq_true hlt⟩
  rw [← heq3] at hmm
  have h4 := (List.mem_filter.mp hmm).2
  simp at h4

/-- Embedding of `S3.keys` (lib/S3.js): run `listRecursive` from the marker and
drop zero-length keys.  When `listRecursive` finishes through its empty-page
path the callback receives no key list (`undefined`), and the subsequent
`allKeys.filter` throws a `TypeError` — modelled as the error result. -/
def keysModel (st : PageStore) (pfx ep marker : String) : Except String (List String) :=
  match listRecursiveM st pfx ep marker [] with
  | none => Except.error "TypeError: allKeys is undefined"
  | some allKeys => Except.ok (allKeys.filter (fun k => decide (0 < k.length)))

/-! ## The fetch pipeline: `S3.get` (lib/S3.js)

Object bodies are modelled as strings; `object.Body.toString(encoding)` is an
abstract `decode` function every theorem is parametric in.  A transformer is a
JavaScript function declared `(object, key)`; the implementation invokes it as
`transformer(object)`, so its second parameter is `undefined` — the transformer
therefore takes an `Option String` key argument, and the code passes `none`.
A transformer may throw, which rejects the fetch. -/

/-- A store state for get/put/copy/delete: newest entry first, lookup finds the
most recent write. -/
abbrev StoreT := List ((String × String) × String)

/-- Lookup of the current body at `(bucket, key)`. -/
def lookupSt : StoreT → String → String → Option String
  | [], _, _ => none
  | (l, v) :: rest, b, k => if l = (b, k) then some v else lookupSt rest b k

/-- A transformer function: raw object body and (optional) key to decoded
value, or a thrown error. -/
abbrev Tf := String → Option String → Except String String

/-- Embedding of `S3.get(bucket, key, encoding, transformer)` (lib/S3.js):
missing object rejects; with a transformer configured the result is
`transformer(object)` — note the key is not passed — and a throw rejects the
fetch; without one the result is the body decoded with the encoding. -/
def s3get (decode : String → String → String) (store : StoreT)
    (bucket key encoding : String) (tf : Option Tf) : Except String String :=
  match lookupSt store bucket key with
  | none => Except.error "NoSuchKey"
  | some obj =>
    match tf with
    | some t => t obj none
    | none => Except.ok (decode obj encoding)

/-- Modelled from the spec (for comparison with `s3get`): the spec states the
transformer "is called with the raw payload and the item's key as arguments",
so here the code would pass `some key` as the transformer's second argument. -/
def s3getSpecKeyed (decode : String → String → String) (store : StoreT)
    (bucket key encoding : String) (tf : Option Tf) : Except String String :=
  match lookupSt store bucket key with
  | none => Except.error "NoSuchKey"
  | some obj =>
    match tf with
    | some t => t obj (some key)
    | none => Except.ok (decode obj encoding)

/-! ## The Request object (lib/Request.js): data model -/

/-- A resolved object reference: bucket, the prefix it was listed under (kept
so output redirection can strip it), and the full key. -/
structure SourceObj where
  bucket : String
  pfx : String
  key : String
deriving DecidableEq, Repr

/-- A concurrency value: a number or `Infinity` (the default). -/
inductive Conc where
  | num : Nat → Conc
  | inf : Conc
deriving DecidableEq, Repr

/-- JavaScript `c || d` for an optional concurrency argument: an absent
argument (`undefined`) and the falsy number `0` fall back to `d`. -/
def concOr (c : Option Conc) (d : Conc) : Conc :=
  match c with
  | none => d
  | some (Conc.num 0) => d
  | some c => c

/-- An output target set by `output(bucket, prefix, rename)`. -/
structure Target where
  bucket : String
  pfx : String
  rename : Option (String → String)

/-- The options record a `Request` carries (`this.opts` plus `this.target` and
`this.destructive`). -/
structure ReqOpts where
  concurrency : Conc
  encoding : String
  transformer : Option Tf
  reverse : Bool
  exclude : Option (String → Bool)
  limit : Option Nat

/-- Embedding of `Request.resolveSources` (lib/Request.js): the resolved
objects pass through, in this order, `reverse` (if set), `limit` (a JavaScript
truthiness test, so a limit of 0 is ignored) and `exclude` (dropping objects
whose key the exclude predicate accepts). -/
def resolveSources (objects : List SourceObj) (o : ReqOpts) : List SourceObj :=
  let a := if o.reverse then objects.reverse else objects
  let b :=
    match o.limit with
    | none => a
    | some n => if n = 0 then a else a.take n
  match o.exclude with
  | none => b
  | some ex => b.filter (fun obj => !(ex obj.key))

/-- Reverse step by itself (for stating the modifier order). -/
def applyReverse (rev : Bool) (l : List SourceObj) : List SourceObj :=
  if rev then l.reverse else l

/-- Limit step by itself (for stating the modifier order). -/
def applyLimit (lim : Option Nat) (l : List SourceObj) : List SourceObj :=
  match lim with
  | none => l
  | some n => if n = 0 then l else l.take n

/-- Exclude step by itself (for stating the modifier order). -/
def applyExclude (ex : Option (String → Bool)) (l : List SourceObj) : List SourceObj :=
  match ex with
  | none => l
  | some e => l.filter (fun obj => !(e obj.key))

/-- Modelled from the spec (for comparison with `resolveSources`): the spec
orders the modifiers exclude first, then reverse, then limit ("truncates to the
first N entries after reverse/exclude"). -/
def specOrderSources (objects : List SourceObj) (o : ReqOpts) : List SourceObj :=
  let a := applyExclude o.exclude objects
  let b := applyReverse o.reverse a
  match o.limit with
  | none => b
  | some n => b.take n

/-! ## Store events

Each terminal operation is modelled as a function which, besides its result,
produces the ordered trace of store calls it issues. -/

/-- A store call issued by an operation. -/
inductive Ev where
  | getE : String → String → Ev
  | putE : String → String → String → Ev
  | copyE : String → String → String → String → Ev
  | delE : String → String → Ev
deriving DecidableEq, Repr

/-- Whether an event mutates the store. -/
def isMut : Ev → Bool
  | Ev.putE _ _ _ => true
  | Ev.copyE _ _ _ _ => true
  | Ev.delE _ _ => true
  | Ev.getE _ _ => false

/-- The location an event mutates, if any. -/
def mutTarget : Ev → Option (String × String)
  | Ev.putE b k _ => some (b, k)
  | Ev.copyE _ _ db dk => some (db, dk)
  | Ev.delE b k => some (b, k)
  | Ev.getE _ _ => none

/-- A trace is two-phase when no fetch happens after the first mutation, i.e.
all keep/remove side effects are applied only after every item was fetched. -/
def twoPhase (l : List Ev) : Bool :=
  (l.dropWhile (fun e => !(isMut e))).all (fun e => isMut e)

/-- Apply one event to the store (`getE` reads only). -/
def applyEv (st : StoreT) : Ev → StoreT
  | Ev.getE _ _ => st
  | Ev.putE b k v => ((b, k), v) :: st
  | Ev.copyE b k db dk =>
    match lookupSt st b k with
    | some v => ((db, dk), v) :: st
    | none => st
  | Ev.delE b k => st.filter (fun e => !(decide (e.1 = (b, k))))

/-- Apply a trace of events to the store, in order. -/
def applyEvents (st : StoreT) (evs : List Ev) : StoreT :=
  evs.foldl applyEv st

/-! ## The terminal operations (lib/Request.js)

The operations are modelled at their sequential (concurrency-1) execution
semantics: tasks are pushed in `SourceSet` order and the model runs them in
that order, recording the trace of store calls.  The concurrency each
operation configures on its `Batch` is exposed as data where a claim depends
on it. -/

/-- Apply the target's rename function the way `Request.rename` does: the
portion of the output key after the target prefix is renamed and the target
prefix is put back in front.  Without a rename function the key is kept. -/
def applyRename (t : Target) (k : String) : String :=
  match t.rename with
  | none => k
  | some r => t.pfx ++ r (k.drop t.pfx.length)

/-- The output key map/filter write to for source `s` under target `t`:
`key.replace(source.prefix, target.prefix)`, optionally renamed. -/
def outputKey (t : Target) (s : SourceObj) : String :=
  applyRename t (jsReplace s.key s.pfx t.pfx)

/-- JavaScript `initialValue || null`: null, undefined and falsy values (for a
string accumulator, the empty string) all collapse to null (`none`). -/
def jsOrNullStr (v : Option String) : Option String :=
  match v with
  | none => none
  | some s => if s = "" then none else some s

/-- The value a fetch of `s` yields when no transformer is configured and the
object exists (used to state success-path theorems). -/
def fetchVal (decode : String → String → String) (store : StoreT)
    (encoding : String) (s : SourceObj) : String :=
  decode ((lookupSt store s.bucket s.key).getD "") encoding

/-- The loop body shared by `each` and `forEach`: fetch each source in order
and run the callback on (body, key); the first rejected fetch or thrown
callback stops the batch with that error. -/
def eachLoop (decode : String → String → String) (store : StoreT)
    (encoding : String) (tf : Option Tf) (fn : String → String → Except String Unit) :
    List SourceObj → Except String Unit × List Ev
  | [] => (Except.ok (), [])
  | s :: rest =>
    let ev := Ev.getE s.bucket s.key
    match s3get decode store s.bucket s.key encoding tf with
    | Except.error e => (Except.error e, [ev])
    | Except.ok body =>
      match fn body s.key with
      | Except.error e => (Except.error e, [ev])
      | Except.ok _ =>
        let r := eachLoop decode store encoding tf fn rest
        (r.1, ev :: r.2)

/-- Result of an `each`/`forEach`/`reduce` run: the concurrency the operation
configured on its `Batch`, the settled result, and the trace of store calls. -/
structure RunOut (α : Type) where
  conc : Conc
  result : Except String α
  trace : List Ev
deriving Repr

/-- Embedding of `Request.each(func, isAsync, concurrency)`: resolve sources,
remember the last one (`undefined` for an empty set), run the loop; the batch
concurrency is `concurrency || this.opts.concurrency`. -/
def eachModel (decode : String → String → String) (store : StoreT) (o : ReqOpts)
    (objects : List SourceObj) (fn : String → String → Except String Unit)
    (conc : Option Conc) : RunOut (Option SourceObj) :=
  let sources := resolveSources objects o
  let lastKey := sources.getLast?
  let r := eachLoop decode store o.encoding o.transformer fn sources
  ⟨concOr conc o.concurrency, r.1.map (fun _ => lastKey), r.2⟩

/-- Embedding of `Request.forEach(func, isasync)`: `each` with concurrency 1. -/
def forEachModel (decode : String → String → String) (store : StoreT) (o : ReqOpts)
    (objects : List SourceObj) (fn : String → String → Except String Unit) :
    RunOut (Option SourceObj) :=
  eachModel decode store o objects fn (some (Conc.num 1))

/-- Embedding of `mapOutput` inside `Request.map`: a null mapper result is an
error; otherwise put in place (no target) or put to the target bucket under
the replaced (and optionally renamed) output key. -/
def mapOutputEv (target : Option Target) (bucket key pfx : String)
    (newval : Option String) : Except String (List Ev) :=
  match newval with
  | none => Except.error "mapper function must return a value"
  | some b =>
    match target with
    | none => Except.ok [Ev.putE bucket key b]
    | some t =>
      Except.ok [Ev.putE t.bucket (applyRename t (jsReplace key pfx t.pfx)) b]

/-- The per-source loop of `Request.map`: fetch, apply the mapper to
(value, key), write through `mapOutput`. -/
def mapLoop (decode : String → String → String) (store : StoreT)
    (encoding : String) (tf : Option Tf) (target : Option Target)
    (fn : String → String → Option String) :
    List SourceObj → Except String Unit × List Ev
  | [] => (Except.ok (), [])
  | s :: rest =>
    let ev := Ev.getE s.bucket s.key
    match s3get decode store s.bucket s.key encoding tf with
    | Except.error e => (Except.error e, [ev])
    | Except.ok body =>
      match mapOutputEv target s.bucket s.key s.pfx (fn body s.key) with
      | Except.error e => (Except.error e, [ev])
      | Except.ok outEvs =>
        let r := mapLoop decode store encoding tf target fn rest
        (r.1, ev :: outEvs ++ r.2)

/-- The body of `Request.map` after the destructive guard. -/
def mapRun (decode : String → String → String) (store : StoreT) (o : ReqOpts)
    (target : Option Target) (objects : List SourceObj)
    (fn : String → String → Option String) :
    Except String (Option SourceObj) × List Ev :=
  let sources := resolveSources objects o
  let lastKey := sources.getLast?
  let r := mapLoop decode store o.encoding o.transformer target fn sources
  (r.1.map (fun _ => lastKey), r.2)

/-- Embedding of `Request.map(func, isAsync)`: without a target and without the
`inplace()` opt-in it throws the configuration error before touching the
store; otherwise it runs `mapRun`. -/
def mapModel (decode : String → String → String) (store : StoreT) (o : ReqOpts)
    (target : Option Target) (destructive : Bool) (objects : List SourceObj)
    (fn : String → String → Option String) :
    Except String (Option SourceObj) × List Ev :=
  if target.isNone && !destructive then
    (Except.error "must use target() or inplace() for destructive operations (map, filter)", [])
  else
    mapRun decode store o target objects fn

/-- The per-source loop of `Request.reduce`: fetch in order and fold the
accumulator through the reducer (accumulator, body, key). -/
def reduceLoop (decode : String → String → String) (store : StoreT)
    (encoding : String) (tf : Option Tf)
    (fn : Option String → String → String → Option String) :
    List SourceObj → Option String → Except String (Option String) × List Ev
  | [], acc => (Except.ok acc, [])
  | s :: rest, acc =>
    let ev := Ev.getE s.bucket s.key
    match s3get decode store s.bucket s.key encoding tf with
    | Except.error e => (Except.error e, [ev])
    | Except.ok body =>
      let r := reduceLoop decode store encoding tf fn rest (fn acc body s.key)
      (r.1, ev :: r.2)

/-- Embedding of `Request.reduce(func, initialValue, isAsync)`: the batch is
configured with `this.opts.concurrency` (not 1), the accumulator starts at
`initialValue || null`, and every source — the first included — is folded
through the reducer. -/
def reduceModel (decode : String → String → String) (store : StoreT) (o : ReqOpts)
    (objects : List SourceObj)
    (fn : Option String → String → String → Option String)
    (initialValue : Option String) : RunOut (Option String) :=
  let sources := resolveSources objects o
  let r := reduceLoop decode store o.encoding o.transformer fn sources
    (jsOrNullStr initialValue)
  ⟨o.concurrency, r.1, r.2⟩

/-- Embedding of `keep` inside `Request.filter`: a kept source is copied to
the target under the replaced (and optionally renamed) key, or left alone when
no target is set. -/
def keepEv (target : Option Target) (s : SourceObj) : List Ev :=
  match target with
  | none => []
  | some t => [Ev.copyE s.bucket s.key t.bucket (applyRename t (jsReplace s.key s.pfx t.pfx))]

/-- Embedding of `remove` inside `Request.filter`: a removed source is deleted
in place when no target is set, and simply not copied when one is. -/
def removeEv (target : Option Target) (s : SourceObj) : List Ev :=
  match target with
  | none => [Ev.delE s.bucket s.key]
  | some _ => []

/-- The per-source loop of `Request.filter`: fetch, evaluate the predicate on
(body, source), and apply that item's keep/remove side effect immediately. -/
def filterLoop (decode : String → String → String) (store : StoreT)
    (encoding : String) (tf : Option Tf) (target : Option Target)
    (pred : String → SourceObj → Bool) :
    List SourceObj → Except String Unit × List Ev
  | [] => (Except.ok (), [])
  | s :: rest =>
    let ev := Ev.getE s.bucket s.key
    match s3get decode store s.bucket s.key encoding tf with
    | Except.error e => (Except.error e, [ev])
    | Except.ok body =>
      let effs := if pred body s then keepEv target s else removeEv target s
      let r := filterLoop decode store encoding tf target pred rest
      (r.1, ev :: effs ++ r.2)

/-- The body of `Request.filter` after the destructive guard. -/
def filterRun (decode : String → String → String) (store : StoreT) (o : ReqOpts)
    (target : Option Target) (objects : List SourceObj)
    (pred : String → SourceObj → Bool) :
    Except String (Option SourceObj) × List Ev :=
  let sources := resolveSources objects o
  let lastKey := sources.getLast?
  let r := filterLoop decode store o.encoding o.transformer target pred sources
  (r.1.map (fun _ => lastKey), r.2)

/-- Embedding of `Request.filter(func, isAsync)`: without a target and without
the `inplace()` opt-in it throws the configuration error before touching the
store; otherwise it runs `filterRun`. -/
def filterModel (decode : String → String → String) (store : StoreT) (o : ReqOpts)
    (target : Option Target) (destructive : Bool) (objects : List SourceObj)
    (pred : String → SourceObj → Bool) :
    Except String (Option SourceObj) × List Ev :=
  if target.isNone && !destructive then
    (Except.error "must use target() or inplace() for destructive operations (map, filter)", [])
  else
    filterRun decode store o target objects pred

/-- Concatenation of a per-item block of events over the sources, in order. -/
def perItemTrace (f : SourceObj → List Ev) : List SourceObj → List Ev
  | [] => []
  | s :: rest => f s ++ perItemTrace f rest

/-- Modelled from the spec (for comparison with `reduceModel`): a reduction
whose null initial value is seeded by the first item's value, folding from the
second item on; items are (value, key) pairs in SourceSet order. -/
def specSeededReduce (fn : Option String → String → String → Option String)
    (initV : Option String) (items : List (String × String)) : Option String :=
  match initV, items with
  | none, [] => none
  | none, (v, _) :: rest =>
    rest.foldl (fun a p => fn a p.1 p.2) (some v)
  | some a, l => l.foldl (fun acc p => fn acc p.1 p.2) (some a)

/-- The scan `listRecursive` performs on the concatenated pages: with a
nonempty `endPrefix` it keeps keys up to (excluding) the first one containing
it; otherwise it keeps everything. -/
def scanKeys (ep : String) (l : List String) : List String :=
  if 0 < ep.length then l.takeWhile (fun k => !(strContains k ep)) else l

/-! ## Success-path lemmas -/

/-- A fetch with no transformer of a present object yields the decoded body. -/
theorem s3get_of_present (decode : String → String → String) (store : StoreT)
    (b k enc : String) (h : (lookupSt store b k).isSome = true) :
    s3get decode store b k enc none =
      Except.ok (decode ((lookupSt store b k).getD "") enc) := by
  unfold s3get
  cases hl : lookupSt store b k with
  | none => rw [hl] at h; simp at h
  | some obj => simp

/-- Every event an `each` loop emits is the fetch of one of its sources. -/
theorem eachLoop_trace_sub (decode : String → String → String) (store : StoreT)
    (enc : String) (tf : Option Tf) (fn : String → String → Except String Unit)
    (sources : List SourceObj) :
    ∀ ev ∈ (eachLoop decode store enc tf fn sources).2,
      ∃ s ∈ sources, ev = Ev.getE s.bucket s.key := by
  induction sources with
  | nil => intro ev hev; simp [eachLoop] at hev
  | cons s rest ih =>
    intro ev hev
    unfold eachLoop at hev
    cases hg : s3get decode store s.bucket s.key enc tf with
    | error e =>
      rw [hg] at hev
      simp only [List.mem_singleton] at hev
      exact ⟨s, List.mem_cons_self s rest, hev⟩
    | ok body =>
      rw [hg] at hev
      simp only at hev
      cases hf : fn body s.key with
      | error e =>
        rw [hf] at hev
        simp only [List.mem_singleton] at hev
        exact ⟨s, List.mem_cons_self s rest, hev⟩
      | ok u =>
        rw [hf] at hev
        simp only [List.mem_cons] at hev
        rcases hev with rfl | hev
        · exact ⟨s, List.mem_cons_self s rest, rfl⟩
        · obtain ⟨s', hs', rfl⟩ := ih ev hev
          exact ⟨s', List.mem_cons_of_mem s hs', rfl⟩

/-- C6: on a `Request` where neither `output(bucket, prefix)` nor `inplace()`
was called, `map` and `filter` throw the configuration error synchronously and
issue no store call at all; when a target is set or `inplace()` was called the
guard does not fire and the operation proceeds. -/
theorem map_filter_destructive_guard (decode : String → String → String)
    (store : StoreT) (o : ReqOpts) (target : Option Target) (destructive : Bool)
    (objects : List SourceObj) (fn : String → String → Option String)
    (pred : String → SourceObj → Bool) :
    (target = none ∧ destructive = false →
      mapModel decode store o target destructive objects fn =
        (Except.error "must use target() or inplace() for destructive operations (map, filter)", []) ∧
      filterModel decode store o target destructive objects pred =
        (Except.error "must use target() or inplace() for destructive operations (map, filter)", [])) ∧
    (target ≠ none ∨ destructive = true →
      mapModel decode store o target destructive objects fn =
        mapRun decode store o target objects fn ∧
      filterModel decode store o target destructive objects pred =
        filterRun decode store o target objects pred) := by
  constructor
  · rintro ⟨rfl, rfl⟩
    exact ⟨rfl, rfl⟩
  · intro h
    rcases h with h | rfl
    · obtain ⟨t, rfl⟩ := Option.ne_none_iff_exists'.mp h
      exact ⟨rfl, rfl⟩
    · cases target with
      | none => exact ⟨rfl, rfl⟩
      | some t => exact ⟨rfl, rfl⟩

/-- Witness for C6 at a concrete unconfigured request: a two-object context,
no target, no `inplace()`; both operations reject with the configuration error
and an empty store trace. -/
theorem map_filter_destructive_guard_witness :
    mapModel (fun b _ => b) [(("b", "files/f1"), "x1")]
      ⟨Conc.inf, "utf8", none, false, none, none⟩ none false
      [⟨"b", "files/", "files/f1"⟩] (fun v _ => some v) =
      (Except.error "must use target() or inplace() for destructive operations (map, filter)", []) ∧
    filterModel (fun b _ => b) [(("b", "files/f1"), "x1")]
      ⟨Conc.inf, "utf8", none, false, none, none⟩ none false
      [⟨"b", "files/", "files/f1"⟩] (fun _ _ => true) =
      (Except.error "must use target() or inplace() for destructive operations (map, filter)", []) :=
  (map_filter_destructive_guard (fun b _ => b) [(("b", "files/f1"), "x1")]
    ⟨Conc.inf, "utf8", none, false, none, none⟩ none false
    [⟨"b", "files/", "files/f1"⟩] (fun v _ => some v) (fun _ _ => true)).1 ⟨rfl, rfl⟩

/-- C3 (amended): the SourceSet modifiers apply in the order reverse, then
limit, then exclude — and an excluded entry is never fetched: every store call
of an `each` run is the fetch of an entry that survived `resolveSources`. -/
theorem sourceset_modifier_order (decode : String → String → String)
    (store : StoreT) (o : ReqOpts) (objects : List SourceObj)
    (fn : String → String → Except String Unit) (conc : Option Conc) :
    resolveSources objects o =
      applyExclude o.exclude (applyLimit o.limit (applyReverse o.reverse objects)) ∧
    (∀ ev ∈ (eachModel decode store o objects fn conc).trace,
      ∃ s ∈ resolveSources objects o, ev = Ev.getE s.bucket s.key) := by
  constructor
  · cases o with
    | mk c e t r ex lim =>
      cases ex <;> cases lim <;> rfl
  · intro ev hev
    exact eachLoop_trace_sub decode store o.encoding o.transformer fn
      (resolveSources objects o) ev hev

/-- Witness for C3 (amended) on a two-object context with `exclude` dropping
one key: the SourceSet is the composite of the three modifier steps, and the
one fetch the run performs is of a surviving entry. -/
theorem sourceset_modifier_order_witness :
    resolveSources [⟨"b", "files/", "files/a"⟩, ⟨"b", "files/", "files/f1"⟩]
      ⟨Conc.inf, "utf8", none, false, some (fun k => k == "files/a"), none⟩ =
      applyExclude (some (fun k => k == "files/a"))
        (applyLimit none (applyReverse false
          [⟨"b", "files/", "files/a"⟩, ⟨"b", "files/", "files/f1"⟩])) ∧
    (∃ s ∈ resolveSources [⟨"b", "files/", "files/a"⟩, ⟨"b", "files/", "files/f1"⟩]
      ⟨Conc.inf, "utf8", none, false, some (fun k => k == "files/a"), none⟩,
      Ev.getE "b" "files/f1" = Ev.getE s.bucket s.key) :=
  ⟨(sourceset_modifier_order (fun b _ => b) [(("b", "files/f1"), "x1")]
      ⟨Conc.inf, "utf8", none, false, some (fun k => k == "files/a"), none⟩
      [⟨"b", "files/", "files/a"⟩, ⟨"b", "files/", "files/f1"⟩]
      (fun _ _ => Except.ok ()) none).1,
   (sourceset_modifier_order (fun b _ => b) [(("b", "files/f1"), "x1")]
      ⟨Conc.inf, "utf8", none, false, some (fun k => k == "files/a"), none⟩
      [⟨"b", "files/", "files/a"⟩, ⟨"b", "files/", "files/f1"⟩]
      (fun _ _ => Except.ok ()) none).2 (Ev.getE "b" "files/f1") (by decide)⟩

/-- Counterexample for C3 as stated: with a limit of 1 and an exclude matching
the first key, the implementation applies limit before exclude and ends with
no sources, while the spec's order (exclude first, limit last) would keep the
second key. -/
theorem sourceset_modifier_order_counterexample :
    resolveSources [⟨"b", "files/", "files/a"⟩, ⟨"b", "files/", "files/f1"⟩]
      ⟨Conc.inf, "utf8", none, false, some (fun k => k == "files/a"), some 1⟩ = [] ∧
    specOrderSources [⟨"b", "files/", "files/a"⟩, ⟨"b", "files/", "files/f1"⟩]
      ⟨Conc.inf, "utf8", none, false, some (fun k => k == "files/a"), some 1⟩ =
      [⟨"b", "files/", "files/f1"⟩] ∧
    ([] : List SourceObj) ≠ [⟨"b", "files/", "files/f1"⟩] := by
  refine ⟨by decide, by decide, by decide⟩

/-! ## Reduce -/

/-- On the success path (no transformer, all objects present) the reduce loop
is a left fold of the reducer over the fetched values, in source order, and
its trace is exactly one fetch per source, in order. -/
theorem reduceLoop_fold (decode : String → String → String) (store : StoreT)
    (enc : String) (fn : Option String → String → String → Option String) :
    ∀ (sources : List SourceObj) (acc : Option String),
      (∀ s ∈ sources, (lookupSt store s.bucket s.key).isSome = true) →
      reduceLoop decode store enc none fn sources acc =
        (Except.ok (sources.foldl
          (fun a s => fn a (fetchVal decode store enc s) s.key) acc),
         sources.map (fun s => Ev.getE s.bucket s.key)) := by
  intro sources
  induction sources with
  | nil => intro acc _; rfl
  | cons s rest ih =>
    intro acc h
    unfold reduceLoop
    rw [s3get_of_present decode store s.bucket s.key enc (h s (List.mem_cons_self s rest))]
    simp only [List.foldl_cons, List.map_cons]
    rw [ih _ (fun s' hs' => h s' (List.mem_cons_of_mem s hs'))]
    rfl


/-- C1 (amended): `reduce` configures its batch with the request's configured
concurrency (the forced concurrency 1 of earlier versions was removed); under
sequential execution the accumulator is the left fold of
`fn(acc, value, key)` over every item of the SourceSet in order, starting from
`initialValue || null` — a null (or falsy) initial value is passed to the
reducer as the first accumulator, it is not replaced by the first item's
value — and the run resolves with the final accumulator. -/
theorem reduce_concurrency_and_fold (decode : String → String → String)
    (store : StoreT) (o : ReqOpts) (objects : List SourceObj)
    (fn : Option String → String → String → Option String) (initV : Option String)
    (htf : o.transformer = none)
    (h : ∀ s ∈ resolveSources objects o, (lookupSt store s.bucket s.key).isSome = true) :
    reduceModel decode store o objects fn initV =
      ⟨o.concurrency,
       Except.ok ((resolveSources objects o).foldl
         (fun a s => fn a (fetchVal decode store o.encoding s) s.key) (jsOrNullStr initV)),
       (resolveSources objects o).map (fun s => Ev.getE s.bucket s.key)⟩ := by
  simp only [reduceModel]
  rw [htf, reduceLoop_fold decode store o.encoding fn (resolveSources objects o)
    (jsOrNullStr initV) h]

/-- Witness for C1 (amended): a concrete two-object context with configured
concurrency 5; the run reports concurrency 5, folds both values through the
reducer starting from null, and fetches both objects in order. -/
theorem reduce_concurrency_and_fold_witness :
    reduceModel (fun b _ => b)
      [(("b", "files/f1"), "x1"), (("b", "files/f2"), "x2")]
      ⟨Conc.num 5, "utf8", none, false, none, none⟩
      [⟨"b", "files/", "files/f1"⟩, ⟨"b", "files/", "files/f2"⟩]
      (fun a v _ => some ((a.getD "N") ++ v)) none =
      ⟨Conc.num 5, Except.ok (some "Nx1x2"),
       [Ev.getE "b" "files/f1", Ev.getE "b" "files/f2"]⟩ := by
  rw [reduce_concurrency_and_fold (fun b _ => b)
    [(("b", "files/f1"), "x1"), (("b", "files/f2"), "x2")]
    ⟨Conc.num 5, "utf8", none, false, none, none⟩
    [⟨"b", "files/", "files/f1"⟩, ⟨"b", "files/", "files/f2"⟩]
    (fun a v _ => some ((a.getD "N") ++ v)) none rfl (by decide)]
  rfl

/-- Counterexample for C1 as stated: with configured concurrency 5 the batch
runs at concurrency 5, not 1; and a null initial value is handed to the
reducer for the first item (yielding "Nx1x2"), it does not seed the
accumulator with the first item's value as the claim states (which would
yield "x1x2"). -/
theorem reduce_claim_counterexample :
    (reduceModel (fun b _ => b)
      [(("b", "files/f1"), "x1"), (("b", "files/f2"), "x2")]
      ⟨Conc.num 5, "utf8", none, false, none, none⟩
      [⟨"b", "files/", "files/f1"⟩, ⟨"b", "files/", "files/f2"⟩]
      (fun a v _ => some ((a.getD "N") ++ v)) none).conc = Conc.num 5 ∧
    Conc.num 5 ≠ Conc.num 1 ∧
    (reduceModel (fun b _ => b)
      [(("b", "files/f1"), "x1"), (("b", "files/f2"), "x2")]
      ⟨Conc.num 5, "utf8", none, false, none, none⟩
      [⟨"b", "files/", "files/f1"⟩, ⟨"b", "files/", "files/f2"⟩]
      (fun a v _ => some ((a.getD "N") ++ v)) none).result =
      Except.ok (some "Nx1x2") ∧
    specSeededReduce (fun a v _ => some ((a.getD "N") ++ v)) none
      [("x1", "files/f1"), ("x2", "files/f2")] = some "x1x2" ∧
    (some "Nx1x2" : Option String) ≠ some "x1x2" := by
  refine ⟨rfl, by decide, rfl, rfl, by decide⟩

/-! ## Empty SourceSet -/

/-- C10 (amended): on an empty SourceSet every terminal operation resolves
without issuing any store call; `each`/`forEach`/`map`/`filter` resolve with
no last object reference (`undefined`, modelled `none`), and `reduce` resolves
with `initialValue || null` — the initial value if it is truthy, and null when
it is null, absent, or falsy (for a string, empty). -/
theorem empty_sourceset_ops (decode : String → String → String) (store : StoreT)
    (o : ReqOpts) (objects : List SourceObj) (target : Option Target)
    (destructive : Bool) (fnE : String → String → Except String Unit)
    (mfn : String → String → Option String) (pred : String → SourceObj → Bool)
    (fn : Option String → String → String → Option String)
    (initV : Option String) (conc : Option Conc)
    (hempty : resolveSources objects o = [])
    (hguard : target ≠ none ∨ destructive = true) :
    eachModel decode store o objects fnE conc =
      ⟨concOr conc o.concurrency, Except.ok none, []⟩ ∧
    forEachModel decode store o objects fnE = ⟨Conc.num 1, Except.ok none, []⟩ ∧
    mapModel decode store o target destructive objects mfn = (Except.ok none, []) ∧
    filterModel decode store o target destructive objects pred = (Except.ok none, []) ∧
    reduceModel decode store o objects fn initV =
      ⟨o.concurrency, Except.ok (jsOrNullStr initV), []⟩ := by
  have hguardB : (target.isNone && !destructive) = false := by
    rcases hguard with h | rfl
    · obtain ⟨t, rfl⟩ := Option.ne_none_iff_exists'.mp h
      rfl
    · cases target <;> rfl
  have hmap : mapModel decode store o target destructive objects mfn =
      mapRun decode store o target objects mfn := by
    simp [mapModel, hguardB]
  have hfil : filterModel decode store o target destructive objects pred =
      filterRun decode store o target objects pred := by
    simp [filterModel, hguardB]
  refine ⟨?_, ?_, ?_, ?_, ?_⟩
  · simp only [eachModel, hempty, eachLoop, List.getLast?_nil, Except.map]
  · simp only [forEachModel, eachModel, hempty, eachLoop, List.getLast?_nil, Except.map]
    rfl
  · rw [hmap]
    simp only [mapRun, hempty, mapLoop, List.getLast?_nil, Except.map]
  · rw [hfil]
    simp only [filterRun, hempty, filterLoop, List.getLast?_nil, Except.map]
  · simp only [reduceModel, hempty, reduceLoop]

/-- Witness for C10 (amended) at a concrete empty context with a target set
and a truthy initial value. -/
theorem empty_sourceset_ops_witness :
    eachModel (fun b _ => b) [] ⟨Conc.inf, "utf8", none, false, none, none⟩ []
      (fun _ _ => Except.ok ()) none = ⟨Conc.inf, Except.ok none, []⟩ ∧
    forEachModel (fun b _ => b) [] ⟨Conc.inf, "utf8", none, false, none, none⟩ []
      (fun _ _ => Except.ok ()) = ⟨Conc.num 1, Except.ok none, []⟩ ∧
    mapModel (fun b _ => b) [] ⟨Conc.inf, "utf8", none, false, none, none⟩
      (some ⟨"b", "out/", none⟩) false [] (fun v _ => some v) = (Except.ok none, []) ∧
    filterModel (fun b _ => b) [] ⟨Conc.inf, "utf8", none, false, none, none⟩
      (some ⟨"b", "out/", none⟩) false [] (fun _ _ => true) = (Except.ok none, []) ∧
    reduceModel (fun b _ => b) [] ⟨Conc.inf, "utf8", none, false, none, none⟩ []
      (fun a _ _ => a) (some "seed") = ⟨Conc.inf, Except.ok (some "seed"), []⟩ :=
  empty_sourceset_ops (fun b _ => b) [] ⟨Conc.inf, "utf8", none, false, none, none⟩ []
    (some ⟨"b", "out/", none⟩) false (fun _ _ => Except.ok ()) (fun v _ => some v)
    (fun _ _ => true) (fun a _ _ => a) (some "seed") none rfl
    (Or.inl (by simp))

/-- Counterexample for C10 as stated: over the empty SourceSet, `reduce` with
the falsy initial value "" resolves with null (`initialValue || null`), not
with the initial accumulator value unchanged. -/
theorem empty_reduce_falsy_counterexample :
    (reduceModel (fun b _ => b) [] ⟨Conc.inf, "utf8", none, false, none, none⟩ []
      (fun a _ _ => a) (some "")).result = Except.ok none ∧
    (Except.ok none : Except String (Option String)) ≠ Except.ok (some "") := by
  refine ⟨rfl, fun h => ?_⟩
  injection h with h'
  exact Option.noConfusion h'

/-! ## Filter -/

/-- On the success path the filter loop evaluates the predicate per item and
emits, for each source in order, its fetch immediately followed by that item's
keep/remove side effect. -/
theorem filterLoop_trace (decode : String → String → String) (store : StoreT)
    (enc : String) (target : Option Target) (pred : String → SourceObj → Bool) :
    ∀ sources : List SourceObj,
      (∀ s ∈ sources, (lookupSt store s.bucket s.key).isSome = true) →
      filterLoop decode store enc none target pred sources =
        (Except.ok (),
         perItemTrace (fun s => Ev.getE s.bucket s.key ::
           (if pred (fetchVal decode store enc s) s then keepEv target s
            else removeEv target s)) sources) := by
  intro sources
  induction sources with
  | nil => intro _; rfl
  | cons s rest ih =>
    intro h
    unfold filterLoop
    rw [s3get_of_present decode store s.bucket s.key enc (h s (List.mem_cons_self s rest))]
    simp only
    rw [ih (fun s' hs' => h s' (List.mem_cons_of_mem s hs'))]
    rfl

/-- C2 (amended): `filter` applies each item's keep/remove side effect
immediately after that item's predicate evaluation — the run's trace is, per
source in order, its fetch followed by its own copy/delete effect, interleaved
item by item rather than deferred to a second pass after all evaluations. -/
theorem filter_effects_applied_per_item (decode : String → String → String)
    (store : StoreT) (o : ReqOpts) (target : Option Target)
    (objects : List SourceObj) (pred : String → SourceObj → Bool)
    (htf : o.transformer = none)
    (h : ∀ s ∈ resolveSources objects o, (lookupSt store s.bucket s.key).isSome = true) :
    filterRun decode store o target objects pred =
      (Except.ok (resolveSources objects o).getLast?,
       perItemTrace (fun s => Ev.getE s.bucket s.key ::
         (if pred (fetchVal decode store o.encoding s) s then keepEv target s
          else removeEv target s)) (resolveSources objects o)) := by
  simp only [filterRun]
  rw [htf, filterLoop_trace decode store o.encoding target pred
    (resolveSources objects o) h]
  rfl

/-- Witness for C2 (amended): two objects, no target (in-place), an
all-rejecting predicate; the trace interleaves each delete right after its own
fetch. -/
theorem filter_effects_applied_per_item_witness :
    filterRun (fun b _ => b)
      [(("b", "files/f1"), "x1"), (("b", "files/f2"), "x2")]
      ⟨Conc.inf, "utf8", none, false, none, none⟩ none
      [⟨"b", "files/", "files/f1"⟩, ⟨"b", "files/", "files/f2"⟩]
      (fun _ _ => false) =
      (Except.ok (some ⟨"b", "files/", "files/f2"⟩),
       [Ev.getE "b" "files/f1", Ev.delE "b" "files/f1",
        Ev.getE "b" "files/f2", Ev.delE "b" "files/f2"]) := by
  rw [filter_effects_applied_per_item (fun b _ => b)
    [(("b", "files/f1"), "x1"), (("b", "files/f2"), "x2")]
    ⟨Conc.inf, "utf8", none, false, none, none⟩ none
    [⟨"b", "files/", "files/f1"⟩, ⟨"b", "files/", "files/f2"⟩]
    (fun _ _ => false) rfl (by decide)]
  rfl

/-- Counterexample for C2 as stated: an in-place filter over two objects with
an all-rejecting predicate deletes the first object before the second is even
fetched — the trace is not two-phase (the claim requires every fetch and
evaluation to precede the first copy/delete). -/
theorem filter_two_phase_counterexample :
    (filterModel (fun b _ => b)
      [(("b", "files/f1"), "x1"), (("b", "files/f2"), "x2")]
      ⟨Conc.inf, "utf8", none, false, none, none⟩ none true
      [⟨"b", "files/", "files/f1"⟩, ⟨"b", "files/", "files/f2"⟩]
      (fun _ _ => false)).2 =
      [Ev.getE "b" "files/f1", Ev.delE "b" "files/f1",
       Ev.getE "b" "files/f2", Ev.delE "b" "files/f2"] ∧
    twoPhase
      [Ev.getE "b" "files/f1", Ev.delE "b" "files/f1",
       Ev.getE "b" "files/f2", Ev.delE "b" "files/f2"] = false := by
  refine ⟨by decide, by decide⟩

/-- Dropping the (non-mutating) fetches from a per-item trace leaves exactly
the per-item mutation blocks, provided each block only mutates. -/
theorem perItemTrace_filter_mut (f : SourceObj → List Ev) (l : List SourceObj)
    (h : ∀ s ∈ l, ∀ e ∈ f s, isMut e = true) :
    (perItemTrace (fun s => Ev.getE s.bucket s.key :: f s) l).filter isMut =
      perItemTrace f l := by
  induction l with
  | nil => rfl
  | cons s rest ih =>
    show (Ev.getE s.bucket s.key :: f s ++ _).filter isMut = _
    rw [List.cons_append, List.filter_cons, List.filter_append]
    simp only [isMut, Bool.false_eq_true, if_false]
    rw [List.filter_eq_self.mpr (h s (List.mem_cons_self s rest)),
      ih (fun s' hs' => h s' (List.mem_cons_of_mem s hs'))]
    rfl

/-- C7: the store mutations of a filter run are exactly, per source in order:
for a kept item, a copy to the target bucket under the key obtained by
replacing the source prefix with the target prefix (optionally renamed) when a
target is set, and nothing when none is; for a removed item, a delete of the
original object when no target is set, and nothing (the object is simply not
copied, the source untouched) when one is. -/
theorem filter_partition_effects (decode : String → String → String)
    (store : StoreT) (o : ReqOpts) (target : Option Target)
    (objects : List SourceObj) (pred : String → SourceObj → Bool)
    (htf : o.transformer = none)
    (h : ∀ s ∈ resolveSources objects o, (lookupSt store s.bucket s.key).isSome = true) :
    ((filterRun decode store o target objects pred).2.filter isMut =
      perItemTrace (fun s =>
        if pred (fetchVal decode store o.encoding s) s then keepEv target s
        else removeEv target s) (resolveSources objects o)) ∧
    (∀ s : SourceObj, keepEv none s = []) ∧
    (∀ (s : SourceObj) (t : Target), keepEv (some t) s =
      [Ev.copyE s.bucket s.key t.bucket (applyRename t (jsReplace s.key s.pfx t.pfx))]) ∧
    (∀ s : SourceObj, removeEv none s = [Ev.delE s.bucket s.key]) ∧
    (∀ (s : SourceObj) (t : Target), removeEv (some t) s = []) := by
  refine ⟨?_, fun s => rfl, fun s t => rfl, fun s => rfl, fun s t => rfl⟩
  have h2 : (filterRun decode store o target objects pred).2 =
      perItemTrace (fun s => Ev.getE s.bucket s.key ::
        (if pred (fetchVal decode store o.encoding s) s then keepEv target s
         else removeEv target s)) (resolveSources objects o) := by
    simp only [filterRun]
    rw [htf, filterLoop_trace decode store o.encoding target pred
      (resolveSources objects o) h]
  rw [h2]
  refine perItemTrace_filter_mut _ _ (fun s _ e he => ?_)
  by_cases hp : pred (fetchVal decode store o.encoding s) s = true
  · rw [if_pos hp] at he
    cases target with
    | none => simp [keepEv] at he
    | some t =>
      simp only [keepEv, List.mem_singleton] at he
      rw [he]; rfl
  · rw [if_neg hp] at he
    cases target with
    | none =>
      simp only [removeEv, List.mem_singleton] at he
      rw [he]; rfl
    | some t => simp [removeEv] at he

/-- Witness for C7: two objects, a target, a predicate keeping only the first;
the run's only mutation is the copy of the kept object to the target under the
prefix-replaced key — the removed object is simply not copied. -/
theorem filter_partition_effects_witness :
    (filterRun (fun b _ => b)
      [(("b", "files/f1"), "x1"), (("b", "files/f2"), "x2")]
      ⟨Conc.inf, "utf8", none, false, none, none⟩ (some ⟨"out", "out/", none⟩)
      [⟨"b", "files/", "files/f1"⟩, ⟨"b", "files/", "files/f2"⟩]
      (fun v _ => v == "x1")).2.filter isMut =
      [Ev.copyE "b" "files/f1" "out" "out/f1"] := by
  rw [(filter_partition_effects (fun b _ => b)
    [(("b", "files/f1"), "x1"), (("b", "files/f2"), "x2")]
    ⟨Conc.inf, "utf8", none, false, none, none⟩ (some ⟨"out", "out/", none⟩)
    [⟨"b", "files/", "files/f1"⟩, ⟨"b", "files/", "files/f2"⟩]
    (fun v _ => v == "x1") rfl (by decide)).1]
  decide

/-! ## Fetch: transformer versus encoding -/

/-- C9 (amended): exactly one of transformer and encoding takes effect on a
fetch.  With a transformer configured the result is independent of the
configured encoding and equals the transformer applied to the raw payload —
with `none` for its key parameter, since `S3.get` invokes `transformer(object)`
without passing the key — and a transformer throw is the fetch's error;
without one the fetch decodes the raw body with the configured encoding. -/
theorem get_transform_precedence (decode : String → String → String)
    (store : StoreT) (b k enc : String) (t : Tf) (obj : String) :
    (∀ enc2 : String,
      s3get decode store b k enc (some t) = s3get decode store b k enc2 (some t)) ∧
    (lookupSt store b k = some obj →
      s3get decode store b k enc (some t) = t obj none) ∧
    (lookupSt store b k = some obj →
      s3get decode store b k enc none = Except.ok (decode obj enc)) := by
  refine ⟨?_, ?_, ?_⟩
  · intro enc2
    unfold s3get
    cases lookupSt store b k <;> rfl
  · intro hl
    unfold s3get
    rw [hl]
  · intro hl
    unfold s3get
    rw [hl]

/-- Witness for C9 (amended) at a concrete store: an identity transformer
receives the raw body, and the transformerless fetch decodes the body. -/
theorem get_transform_precedence_witness :
    s3get (fun b2 _ => b2) [(("b", "k1"), "body1")] "b" "k1" "utf8"
      (some (fun o _ => Except.ok o)) = Except.ok "body1" ∧
    s3get (fun b2 _ => b2) [(("b", "k1"), "body1")] "b" "k1" "utf8" none =
      Except.ok "body1" :=
  ⟨(get_transform_precedence (fun b2 _ => b2) [(("b", "k1"), "body1")] "b" "k1" "utf8"
      (fun o _ => Except.ok o) "body1").2.1 rfl,
   (get_transform_precedence (fun b2 _ => b2) [(("b", "k1"), "body1")] "b" "k1" "utf8"
      (fun o _ => Except.ok o) "body1").2.2 rfl⟩

/-- Counterexample for C9 as stated: a transformer that returns its key
argument observes `undefined` (`none`), not the item's key — `S3.get` calls
`transformer(object)` with the raw payload only, while the claim (and the
spec-modelled variant) would pass the key as second argument. -/
theorem get_transformer_key_counterexample :
    s3get (fun b2 _ => b2) [(("b", "k1"), "body1")] "b" "k1" "utf8"
      (some (fun _ kk => Except.ok (kk.getD "undefined"))) = Except.ok "undefined" ∧
    s3getSpecKeyed (fun b2 _ => b2) [(("b", "k1"), "body1")] "b" "k1" "utf8"
      (some (fun _ kk => Except.ok (kk.getD "undefined"))) = Except.ok "k1" ∧
    ("undefined" : String) ≠ "k1" := by
  refine ⟨rfl, rfl, by decide⟩

/-! ## Map with an output target -/

/-- On the success path, mapping the identity function with a target produces,
per source in order, its fetch followed by the put of the fetched value to the
target bucket under the mapped output key. -/
theorem mapLoop_identity_trace (decode : String → String → String) (store : StoreT)
    (enc : String) (t : Target) :
    ∀ sources : List SourceObj,
      (∀ s ∈ sources, (lookupSt store s.bucket s.key).isSome = true) →
      mapLoop decode store enc none (some t) (fun v _ => some v) sources =
        (Except.ok (),
         perItemTrace (fun s =>
           [Ev.getE s.bucket s.key,
            Ev.putE t.bucket (outputKey t s) (fetchVal decode store enc s)]) sources) := by
  intro sources
  induction sources with
  | nil => intro _; rfl
  | cons s rest ih =>
    intro h
    unfold mapLoop
    rw [s3get_of_present decode store s.bucket s.key enc (h s (List.mem_cons_self s rest))]
    simp only [mapOutputEv]
    rw [ih (fun s' hs' => h s' (List.mem_cons_of_mem s hs'))]
    rfl

/-- Lookup is unchanged by deleting a different location. -/
theorem lookup_delSt_ne (b' k' b k : String) (hne : (b', k') ≠ (b, k)) :
    ∀ st : StoreT,
      lookupSt (st.filter (fun en => !(decide (en.1 = (b', k'))))) b k =
        lookupSt st b k := by
  intro st
  induction st with
  | nil => rfl
  | cons en rest ih =>
    obtain ⟨l, v⟩ := en
    rw [List.filter_cons]
    by_cases hl : l = (b', k')
    · rw [if_neg (by simp [hl])]
      rw [ih]
      simp only [lookupSt]
      rw [if_neg (by rw [hl]; exact hne)]
    · rw [if_pos (by simp [hl])]
      simp only [lookupSt]
      by_cases hbk : l = (b, k)
      · rw [if_pos hbk, if_pos hbk]
      · rw [if_neg hbk, if_neg hbk, ih]

/-- Lookup at a location an event does not mutate is unchanged. -/
theorem lookup_applyEv_ne (st : StoreT) (e : Ev) (b k : String)
    (h : mutTarget e ≠ some (b, k)) :
    lookupSt (applyEv st e) b k = lookupSt st b k := by
  cases e with
  | getE b' k' => rfl
  | putE b' k' v =>
    have hne : (b', k') ≠ (b, k) := fun hh => h (by rw [mutTarget, hh])
    simp only [applyEv, lookupSt]
    rw [if_neg hne]
  | copyE b' k' db dk =>
    have hne : (db, dk) ≠ (b, k) := fun hh => h (by rw [mutTarget, hh])
    simp only [applyEv]
    cases lookupSt st b' k' with
    | none => rfl
    | some v =>
      simp only [lookupSt]
      rw [if_neg hne]
  | delE b' k' =>
    have hne : (b', k') ≠ (b, k) := fun hh => h (by rw [mutTarget, hh])
    simp only [applyEv]
    exact lookup_delSt_ne b' k' b k hne st

/-- Lookup at a location no event of a trace mutates is unchanged by the
whole trace. -/
theorem lookup_applyEvents_no_mut (evs : List Ev) :
    ∀ (st : StoreT) (b k : String),
      (∀ e ∈ evs, mutTarget e ≠ some (b, k)) →
      lookupSt (applyEvents st evs) b k = lookupSt st b k := by
  induction evs with
  | nil => intro st b k _; rfl
  | cons e rest ih =>
    intro st b k h
    show lookupSt (applyEvents (applyEv st e) rest) b k = lookupSt st b k
    rw [ih (applyEv st e) b k (fun e' he' => h e' (List.mem_cons_of_mem e he'))]
    exact lookup_applyEv_ne st e b k (h e (List.mem_cons_self e rest))

/-- Every event of an identity-map trace is either the fetch of a source or
the put of that source's value at its output key. -/
theorem mem_map_identity_trace (decode : String → String → String) (store : StoreT)
    (enc : String) (t : Target) (sources : List SourceObj) :
    ∀ e ∈ perItemTrace (fun s =>
        [Ev.getE s.bucket s.key,
         Ev.putE t.bucket (outputKey t s) (fetchVal decode store enc s)]) sources,
      ∃ s ∈ sources, e = Ev.getE s.bucket s.key ∨
        e = Ev.putE t.bucket (outputKey t s) (fetchVal decode store enc s) := by
  induction sources with
  | nil => intro e he; simp [perItemTrace] at he
  | cons s rest ih =>
    intro e he
    simp only [perItemTrace, List.cons_append, List.nil_append, List.mem_cons] at he
    rcases he with rfl | rfl | he
    · exact ⟨s, List.mem_cons_self s rest, Or.inl rfl⟩
    · exact ⟨s, List.mem_cons_self s rest, Or.inr rfl⟩
    · obtain ⟨s', hs', hor⟩ := ih e he
      exact ⟨s', List.mem_cons_of_mem s hs', hor⟩

/-- After applying an identity-map trace to the store, each output key holds
the fetched value of its source, provided the output keys are pairwise
distinct. -/
theorem lookup_after_map_trace (decode : String → String → String) (store : StoreT)
    (enc : String) (t : Target) :
    ∀ (sources : List SourceObj) (st : StoreT),
      ((sources.map (fun s => outputKey t s)).Nodup) →
      ∀ s0 ∈ sources,
        lookupSt (applyEvents st (perItemTrace (fun s =>
          [Ev.getE s.bucket s.key,
           Ev.putE t.bucket (outputKey t s) (fetchVal decode store enc s)]) sources))
          t.bucket (outputKey t s0) = some (fetchVal decode store enc s0) := by
  intro sources
  induction sources with
  | nil => intro st _ s0 hs0; simp at hs0
  | cons s rest ih =>
    intro st hnd s0 hs0
    have hnd1 := hnd
    rw [List.map_cons] at hnd1
    have hnd' := List.nodup_cons.mp hnd1
    show lookupSt (applyEvents
      (applyEv (applyEv st (Ev.getE s.bucket s.key))
        (Ev.putE t.bucket (outputKey t s) (fetchVal decode store enc s)))
      (perItemTrace _ rest)) t.bucket (outputKey t s0) = _
    rcases List.mem_cons.mp hs0 with rfl | hs0'
    · rw [lookup_applyEvents_no_mut _ _ _ _ ?hnomut]
      · show lookupSt (((t.bucket, outputKey t s0), fetchVal decode store enc s0) :: st)
          t.bucket (outputKey t s0) = _
        simp [lookupSt]
      case hnomut =>
        intro e he
        obtain ⟨s', hs', hor⟩ := mem_map_identity_trace decode store enc t rest e he
        rcases hor with rfl | rfl
        · simp [mutTarget]
        · simp only [mutTarget, ne_eq, Option.some.injEq, Prod.mk.injEq, not_and]
          intro _
          exact fun hk => hnd'.1 (hk ▸ List.mem_map_of_mem (fun s2 => outputKey t s2) hs')
    · exact ih _ hnd'.2 s0 hs0'

/-- C8: mapping the identity function over a SourceSet with an output target
whose mapped locations are disjoint from every source location (and pairwise
distinct) issues no put, copy or delete against any source object, leaves
every source object byte-identical, and writes to each mapped target key a
value byte-identical to the corresponding source object's content. -/
theorem map_identity_roundtrip (decode : String → String → String) (store : StoreT)
    (o : ReqOpts) (t : Target) (objects : List SourceObj)
    (htf : o.transformer = none)
    (hdec : ∀ bdy : String, decode bdy o.encoding = bdy)
    (h : ∀ s ∈ resolveSources objects o, (lookupSt store s.bucket s.key).isSome = true)
    (hdisj : ∀ s ∈ resolveSources objects o, ∀ s2 ∈ resolveSources objects o,
      (t.bucket, outputKey t s) ≠ (s2.bucket, s2.key))
    (hnodup : ((resolveSources objects o).map (fun s => outputKey t s)).Nodup) :
    (∀ e ∈ (mapRun decode store o (some t) objects (fun v _ => some v)).2,
      ∀ s2 ∈ resolveSources objects o, mutTarget e ≠ some (s2.bucket, s2.key)) ∧
    (∀ s2 ∈ resolveSources objects o,
      lookupSt (applyEvents store
          (mapRun decode store o (some t) objects (fun v _ => some v)).2)
        s2.bucket s2.key = lookupSt store s2.bucket s2.key) ∧
    (∀ s ∈ resolveSources objects o,
      lookupSt (applyEvents store
          (mapRun decode store o (some t) objects (fun v _ => some v)).2)
        t.bucket (outputKey t s) = lookupSt store s.bucket s.key) := by
  have htr : (mapRun decode store o (some t) objects (fun v _ => some v)).2 =
      perItemTrace (fun s =>
        [Ev.getE s.bucket s.key,
         Ev.putE t.bucket (outputKey t s) (fetchVal decode store o.encoding s)])
        (resolveSources objects o) := by
    simp only [mapRun]
    rw [htf, mapLoop_identity_trace decode store o.encoding t (resolveSources objects o) h]
  have hmut : ∀ e ∈ (mapRun decode store o (some t) objects (fun v _ => some v)).2,
      ∀ s2 ∈ resolveSources objects o, mutTarget e ≠ some (s2.bucket, s2.key) := by
    intro e he s2 hs2
    rw [htr] at he
    obtain ⟨s', hs', hor⟩ :=
      mem_map_identity_trace decode store o.encoding t (resolveSources objects o) e he
    rcases hor with rfl | rfl
    · simp [mutTarget]
    · simp only [mutTarget, ne_eq, Option.some.injEq]
      exact hdisj s' hs' s2 hs2
  refine ⟨hmut, ?_, ?_⟩
  · intro s2 hs2
    exact lookup_applyEvents_no_mut _ store s2.bucket s2.key
      (fun e he => hmut e he s2 hs2)
  · intro s hs
    rw [htr]
    rw [lookup_after_map_trace decode store o.encoding t (resolveSources objects o)
      store hnodup s hs]
    cases hl : lookupSt store s.bucket s.key with
    | none =>
      have hsome := h s hs
      rw [hl] at hsome
      simp at hsome
    | some bdy =>
      simp only [fetchVal, hl, Option.getD_some]
      rw [hdec bdy]

/-- Witness for C8 at a concrete two-object store: the kept source objects are
untouched and each output object holds its source's content. -/
theorem map_identity_roundtrip_witness :
    lookupSt (applyEvents [(("b", "files/f1"), "x1"), (("b", "files/f2"), "x2")]
      (mapRun (fun b _ => b) [(("b", "files/f1"), "x1"), (("b", "files/f2"), "x2")]
        ⟨Conc.inf, "utf8", none, false, none, none⟩ (some ⟨"out", "out/", none⟩)
        [⟨"b", "files/", "files/f1"⟩, ⟨"b", "files/", "files/f2"⟩]
        (fun v _ => some v)).2)
      "out" (outputKey ⟨"out", "out/", none⟩ ⟨"b", "files/", "files/f1"⟩) =
      lookupSt [(("b", "files/f1"), "x1"), (("b", "files/f2"), "x2")] "b" "files/f1" ∧
    lookupSt (applyEvents [(("b", "files/f1"), "x1"), (("b", "files/f2"), "x2")]
      (mapRun (fun b _ => b) [(("b", "files/f1"), "x1"), (("b", "files/f2"), "x2")]
        ⟨Conc.inf, "utf8", none, false, none, none⟩ (some ⟨"out", "out/", none⟩)
        [⟨"b", "files/", "files/f1"⟩, ⟨"b", "files/", "files/f2"⟩]
        (fun v _ => some v)).2)
      "b" "files/f2" =
      lookupSt [(("b", "files/f1"), "x1"), (("b", "files/f2"), "x2")] "b" "files/f2" :=
  ⟨(map_identity_roundtrip (fun b _ => b)
      [(("b", "files/f1"), "x1"), (("b", "files/f2"), "x2")]
      ⟨Conc.inf, "utf8", none, false, none, none⟩ ⟨"out", "out/", none⟩
      [⟨"b", "files/", "files/f1"⟩, ⟨"b", "files/", "files/f2"⟩]
      rfl (fun _ => rfl) (by decide) (by decide) (by decide)).2.2
      ⟨"b", "files/", "files/f1"⟩ (by decide),
   (map_identity_roundtrip (fun b _ => b)
      [(("b", "files/f1"), "x1"), (("b", "files/f2"), "x2")]
      ⟨Conc.inf, "utf8", none, false, none, none⟩ ⟨"out", "out/", none⟩
      [⟨"b", "files/", "files/f1"⟩, ⟨"b", "files/", "files/f2"⟩]
      rfl (fun _ => rfl) (by decide) (by decide) (by decide)).2.1
      ⟨"b", "files/", "files/f2"⟩ (by decide)⟩

/-! ## Pagination of key resolution -/


theorem takeWhile_take_of_stop {α : Type} (p : α → Bool) :
    ∀ (l : List α) (n : Nat), (l.take n).all p = false →
      (l.take n).takeWhile p = l.takeWhile p := by
  intro l
  induction l with
  | nil => intro n h; simp at h
  | cons a tl ih =>
    intro n h
    cases n with
    | zero => simp at h
    | succ m =>
      rw [List.take_succ_cons] at h ⊢
      rw [List.all_cons] at h
      by_cases hp : p a = true
      · rw [hp, Bool.true_and] at h
        rw [List.takeWhile_cons, List.takeWhile_cons, hp]
        simp only [if_true]
        rw [ih m h]
      · have hpf : p a = false := Bool.not_eq_true _ ▸ hp
        rw [List.takeWhile_cons, List.takeWhile_cons, hpf]
        simp

theorem takeWhile_split_at_take {α : Type} (p : α → Bool) :
    ∀ (l : List α) (n : Nat), (l.take n).all p = true →
      l.takeWhile p = l.take n ++ (l.drop n).takeWhile p := by
  intro l
  induction l with
  | nil => intro n _; simp
  | cons a tl ih =>
    intro n h
    cases n with
    | zero => simp
    | succ m =>
      rw [List.take_succ_cons, List.all_cons, Bool.and_eq_true] at h
      rw [List.take_succ_cons, List.drop_succ_cons, List.takeWhile_cons, if_pos h.1,
        ih m h.2, List.cons_append]

theorem takeWhile_eq_self_of_all {α : Type} (p : α → Bool) :
    ∀ l : List α, l.all p = true → l.takeWhile p = l := by
  intro l
  induction l with
  | nil => intro _; rfl
  | cons a tl ih =>
    intro h
    rw [List.all_cons, Bool.and_eq_true] at h
    rw [List.takeWhile_cons, if_pos h.1, ih h.2]

theorem le_getLast_of_sorted :
    ∀ (t : List String) (h : t ≠ []),
      List.Pairwise (fun a b : String => a.data < b.data) t →
      ∀ a ∈ t, a.data ≤ (t.getLast h).data := by
  intro t
  induction t with
  | nil => intro h; exact absurd rfl h
  | cons x tl ih =>
    intro h hs a ha
    cases tl with
    | nil =>
      rcases List.mem_singleton.mp ha with rfl
      exact le_refl _
    | cons y tl2 =>
      rw [List.getLast_cons (List.cons_ne_nil y tl2)]
      rcases List.mem_cons.mp ha with rfl | ha2
      · exact le_of_lt ((List.pairwise_cons.mp hs).1 _ (List.getLast_mem _))
      · exact ih (List.cons_ne_nil y tl2) (List.pairwise_cons.mp hs).2 a ha2

theorem getLast_eq_of_eq {α : Type} (l₁ l₂ : List α) (h : l₁ = l₂) (h₁ : l₁ ≠ [])
    (h₂ : l₂ ≠ []) : l₁.getLast h₁ = l₂.getLast h₂ := by
  subst h; rfl

/-- In a strictly sorted list, the keys strictly past the last entry of the
first page are exactly the keys after the first page. -/
theorem filter_gt_getLast_take (m : List String) (P : Nat)
    (hsort : List.Pairwise (fun a b : String => a.data < b.data) m)
    (hne : m.take P ≠ []) :
    m.filter (fun k => decide (((m.take P).getLast hne).data < k.data)) = m.drop P := by
  set L := (m.take P).getLast hne with hL
  have hsplit := List.take_append_drop P m
  have hpw : List.Pairwise (fun a b : String => a.data < b.data)
      (m.take P ++ m.drop P) := by
    rw [hsplit]; exact hsort
  have hpa := List.pairwise_append.mp hpw
  conv_lhs => rw [← hsplit]
  rw [List.filter_append]
  have h1 : (m.take P).filter (fun k => decide (L.data < k.data)) = [] := by
    rw [List.filter_eq_nil_iff]
    intro a ha
    have hle : a.data ≤ L.data := le_getLast_of_sorted (m.take P) hne hpa.1 a ha
    simp [not_lt.mpr hle]
  have h2 : (m.drop P).filter (fun k => decide (L.data < k.data)) = m.drop P := by
    rw [List.filter_eq_self]
    intro a ha
    exact decide_eq_true (hpa.2.2 L (hL ▸ List.getLast_mem hne) a ha)
  rw [h1, h2, List.nil_append]

/-- Moving the marker to a key past the old marker refines the matching set. -/
theorem matchingKeys_after (st : PageStore) (pfx marker L : String)
    (hL : marker.data < L.data) :
    matchingKeys st pfx L =
      (matchingKeys st pfx marker).filter (fun k => decide (L.data < k.data)) := by
  unfold matchingKeys
  rw [List.filter_filter]
  apply List.filter_congr
  intro k _
  by_cases hLk : L.data < k.data
  · have hmk : marker.data < k.data := lt_trans hL hLk
    simp [hLk, hmk]
  · simp [hLk]

theorem any_of_not_all {α : Type} (p : α → Bool) (l : List α)
    (h : l.all (fun a => !(p a)) = false) : l.any p = true := by
  induction l with
  | nil => simp at h
  | cons a tl ih =>
    rw [List.all_cons] at h
    rw [List.any_cons]
    cases hpa : p a with
    | true => simp
    | false =>
      rw [hpa] at h
      simp only [Bool.not_false, Bool.true_and] at h
      simp [ih h]

/-- Core pagination lemma: over a sorted store with page size at least 1 and
at least one matching key, `listRecursive` returns the accumulator followed by
the endPrefix-scan of all matching keys — every page is visited until either
the scan stops or the store reports no further truncation. -/
theorem listRecursive_pages (st : PageStore) (pfx ep : String)
    (hsort : List.Pairwise (fun a b : String => a.data < b.data) st.keys)
    (hP : 1 ≤ st.pageSize) :
    ∀ (n : Nat) (marker : String) (acc : List String),
      (matchingKeys st pfx marker).length ≤ n →
      matchingKeys st pfx marker ≠ [] →
      listRecursiveM st pfx ep marker acc =
        some (acc ++ scanKeys ep (matchingKeys st pfx marker)) := by
  intro n
  induction n with
  | zero =>
    intro marker acc hlen hne
    exact absurd (List.eq_nil_of_length_eq_zero (Nat.le_zero.mp hlen)) hne
  | succ n ih =>
    intro marker acc hlen hne
    have hsortm : List.Pairwise (fun a b : String => a.data < b.data)
        (matchingKeys st pfx marker) :=
      List.Pairwise.sublist (List.filter_sublist _) hsort
    have hne2 : (matchingKeys st pfx marker).take st.pageSize ≠ [] := by
      intro h0
      rcases List.take_eq_nil_iff.mp h0 with h | h
      · rw [h] at hP; exact absurd hP (by omega)
      · exact hne h
    unfold listRecursiveM
    split
    · rename_i heq
      exact absurd heq hne2
    · rename_i c cs heq
      have hpage : (matchingKeys st pfx marker).take st.pageSize = c :: cs := heq
      dsimp only
      by_cases htr : (listObjectsM st pfx marker).truncated = true
      · by_cases hstop : (decide (0 < ep.length) &&
            (c :: cs).any (fun k => strContains k ep)) = true
        · rw [if_neg (by rw [htr, hstop]; simp)]
          have hep : 0 < ep.length :=
            of_decide_eq_true ((Bool.and_eq_true _ _).mp hstop).1
          have hany : (c :: cs).any (fun k => strContains k ep) = true :=
            ((Bool.and_eq_true _ _).mp hstop).2
          rw [if_pos hep]
          have hall : ((matchingKeys st pfx marker).take st.pageSize).all
              (fun k => !(strContains k ep)) = false := by
            rw [hpage]
            obtain ⟨k, hk, hck⟩ := List.any_eq_true.mp hany
            cases hallt : (c :: cs).all (fun k => !(strContains k ep)) with
            | false => rfl
            | true =>
              have h2 := List.all_eq_true.mp hallt k hk
              rw [hck] at h2
              simp at h2
          have hTW := takeWhile_take_of_stop (fun k => !(strContains k ep))
            (matchingKeys st pfx marker) st.pageSize hall
          rw [hpage] at hTW
          rw [hTW]
          simp only [scanKeys, if_pos hep]
        · rw [if_pos (by rw [htr, eq_false_of_ne_true hstop]; simp)]
          have hkept : (if 0 < ep.length
              then (c :: cs).takeWhile (fun k => !(strContains k ep))
              else (c :: cs)) = c :: cs := by
            by_cases hep : 0 < ep.length
            · rw [if_pos hep]
              apply takeWhile_eq_self_of_all
              cases hallt : (c :: cs).all (fun k => !(strContains k ep)) with
              | true => rfl
              | false =>
                exfalso
                apply hstop
                rw [decide_eq_true hep, Bool.true_and]
                exact any_of_not_all _ _ hallt
            · rw [if_neg hep]
          rw [hkept]
          have hLcons : ((c : String) :: cs).getLast (List.cons_ne_nil c cs) ∈ c :: cs :=
            List.getLast_mem _
          have hLtake : ((c : String) :: cs).getLast (List.cons_ne_nil c cs) ∈
              (matchingKeys st pfx marker).take st.pageSize := by
            rw [hpage]; exact hLcons
          have hLmem : ((c : String) :: cs).getLast (List.cons_ne_nil c cs) ∈
              matchingKeys st pfx marker := List.mem_of_mem_take hLtake
          have hLmarker : marker.data <
              ((c :: cs).getLast (List.cons_ne_nil c cs)).data := by
            have h2 := (List.mem_filter.mp hLmem).2
            simp only [Bool.and_eq_true, decide_eq_true_eq] at h2
            exact h2.2
          have hLeq : ((matchingKeys st pfx marker).take st.pageSize).getLast hne2 =
              (c :: cs).getLast (List.cons_ne_nil c cs) :=
            getLast_eq_of_eq _ _ hpage hne2 (List.cons_ne_nil c cs)
          have hmk : matchingKeys st pfx ((c :: cs).getLast (List.cons_ne_nil c cs)) =
              (matchingKeys st pfx marker).drop st.pageSize := by
            rw [matchingKeys_after st pfx marker _ hLmarker, ← hLeq]
            exact filter_gt_getLast_take (matchingKeys st pfx marker) st.pageSize
              hsortm hne2
          have htrlt : st.pageSize < (matchingKeys st pfx marker).length := by
            have hdef : (listObjectsM st pfx marker).truncated =
                decide (st.pageSize < (matchingKeys st pfx marker).length) := rfl
            rw [hdef] at htr
            exact of_decide_eq_true htr
          have hlen2 : (matchingKeys st pfx
              ((c :: cs).getLast (List.cons_ne_nil c cs))).length ≤ n := by
            rw [hmk, List.length_drop]
            omega
          have hne3 : matchingKeys st pfx
              ((c :: cs).getLast (List.cons_ne_nil c cs)) ≠ [] := by
            rw [hmk]
            intro h0
            have h1 := congrArg List.length h0
            rw [List.length_drop, List.length_nil] at h1
            omega
          rw [ih _ (acc ++ (c :: cs)) hlen2 hne3, hmk, List.append_assoc]
          refine congrArg some (congrArg (fun x => acc ++ x) ?_)
          by_cases hep : 0 < ep.length
          · simp only [scanKeys, if_pos hep]
            have hall : ((matchingKeys st pfx marker).take st.pageSize).all
                (fun k => !(strContains k ep)) = true := by
              rw [hpage]
              cases hallt : (c :: cs).all (fun k => !(strContains k ep)) with
              | true => rfl
              | false =>
                exfalso
                apply hstop
                rw [decide_eq_true hep, Bool.true_and]
                exact any_of_not_all _ _ hallt
            have hsplit := takeWhile_split_at_take (fun k => !(strContains k ep))
              (matchingKeys st pfx marker) st.pageSize hall
            rw [hpage] at hsplit
            rw [hsplit]
          · simp only [scanKeys, if_neg hep]
            conv_rhs => rw [← List.take_append_drop st.pageSize (matchingKeys st pfx marker)]
            rw [hpage]
      · rw [if_neg (by rw [eq_false_of_ne_true htr]; simp)]
        have hlenle : (matchingKeys st pfx marker).length ≤ st.pageSize := by
          have hdef : (listObjectsM st pfx marker).truncated =
              decide (st.pageSize < (matchingKeys st pfx marker).length) := rfl
          rw [hdef] at htr
          have h2 := of_decide_eq_false (eq_false_of_ne_true htr)
          omega
        have hcm : c :: cs = matchingKeys st pfx marker := by
          rw [← hpage, List.take_of_length_le hlenle]
        rw [hcm]
        simp only [scanKeys]

/-- C5: with a nonempty `endPrefix`, key resolution over a sorted store (page
size at least 1, at least one matching key, no empty keys) returns exactly the
matching keys up to — excluding — the first one containing the endPrefix: the
page scan truncates at the match and pagination stops there even when the
store reports further pages. -/
theorem keys_endPrefix_early_stop (st : PageStore) (pfx ep marker : String)
    (hsort : List.Pairwise (fun a b : String => a.data < b.data) st.keys)
    (hP : 1 ≤ st.pageSize)
    (hep : 0 < ep.length)
    (hne : matchingKeys st pfx marker ≠ [])
    (hkeys : ∀ k ∈ st.keys, 0 < k.length) :
    keysModel st pfx ep marker =
      Except.ok ((matchingKeys st pfx marker).takeWhile
        (fun k => !(strContains k ep))) := by
  unfold keysModel
  rw [listRecursive_pages st pfx ep hsort hP (matchingKeys st pfx marker).length
    marker [] (le_refl _) hne]
  simp only [List.nil_append, scanKeys, if_pos hep]
  refine congrArg Except.ok (List.filter_eq_self.mpr ?_)
  intro k hk
  have hk1 : k ∈ matchingKeys st pfx marker := (List.takeWhile_sublist _).subset hk
  exact decide_eq_true (hkeys k (List.mem_of_mem_filter hk1))

/-- Witness for C5: keys a..e with page size 2 and endPrefix "c" — the match
is found on the second page while a third page still remains, and resolution
returns exactly [a, b]. -/
theorem keys_endPrefix_early_stop_witness :
    keysModel ⟨["a", "b", "c", "d", "e"], 2⟩ "" "c" "" = Except.ok ["a", "b"] := by
  rw [keys_endPrefix_early_stop ⟨["a", "b", "c", "d", "e"], 2⟩ "" "c" "" (by decide)
    (by decide) (by decide) (by decide) (by decide)]
  exact congrArg Except.ok (by decide)

/-- C4 (supporting theorem for the positive part of the claim): with no
endPrefix, key resolution over a sorted store returns exactly the matching
keys, in store (lexicographic) order, for every page size of at least 1 —
provided at least one key matches. -/
theorem keys_pagination_complete (st : PageStore) (pfx marker : String)
    (hsort : List.Pairwise (fun a b : String => a.data < b.data) st.keys)
    (hP : 1 ≤ st.pageSize)
    (hne : matchingKeys st pfx marker ≠ [])
    (hkeys : ∀ k ∈ st.keys, 0 < k.length) :
    keysModel st pfx "" marker = Except.ok (matchingKeys st pfx marker) := by
  unfold keysModel
  rw [listRecursive_pages st pfx "" hsort hP (matchingKeys st pfx marker).length
    marker [] (le_refl _) hne]
  simp only [List.nil_append, scanKeys]
  rw [if_neg (by decide)]
  refine congrArg Except.ok (List.filter_eq_self.mpr ?_)
  intro k hk
  exact decide_eq_true (hkeys k (List.mem_of_mem_filter hk))

/-- Witness for the pagination-complete support theorem: three keys under the
prefix with page size 2 (so a second round trip is needed) resolve to all
three keys in order. -/
theorem keys_pagination_complete_witness :
    keysModel ⟨["p/a", "p/b", "p/c"], 2⟩ "p/" "" "" =
      Except.ok ["p/a", "p/b", "p/c"] := by
  rw [keys_pagination_complete ⟨["p/a", "p/b", "p/c"], 2⟩ "p/" "" (by decide)
    (by decide) (by decide) (by decide)]
  exact congrArg Except.ok (by decide)

/-- C4 (the code at the failing input): resolving a context with zero objects
does not produce the empty key list — the empty first page makes
`listRecursive` invoke its callback with no arguments, and `S3.keys` then
crashes reading `.filter` of `undefined` (the returned promise never
resolves).  The model returns the corresponding error. -/
theorem keys_empty_context_type_error :
    keysModel ⟨[], 1000⟩ "files/" "" "" =
      Except.error "TypeError: allKeys is undefined" := by
  unfold keysModel
  have h0 : listRecursiveM ⟨[], 1000⟩ "files/" "" "" [] = none := by
    unfold listRecursiveM
    split
    · rfl
    · rename_i c cs heq
      simp [listObjectsM, matchingKeys] at heq
  rw [h0]
